import Mathlib

/-!
Verification of the path-confinement, atomic-write, archive and versioning
core of `filesystem.py` (openwebui-filesystem).

The Python code is shallowly embedded: POSIX path strings are Lean `String`s
(manipulated through their underlying `List Char`), the relevant pieces of
`os.path` (`normpath`, `join`, `abspath`, `dirname`, `splitext`) and of
`pathlib` (`/`-join, `relative_to`) are re-implemented faithfully, the
filesystem is a map from path to file content, and each operation of the tool
becomes a pure function over that state.  Symbolic links are outside the
model: `Path.resolve` / `os.path.abspath` are modelled as lexical
normalization, which coincides with the real functions on a filesystem
without symlinks.
-/

namespace FsTool

/-- Python `str.split('/')`: split a character list at every slash, keeping
empty pieces, always returning at least one piece. -/
def splitSlash : List Char → List (List Char)
  | [] => [[]]
  | c :: cs =>
    if c = '/' then [] :: splitSlash cs
    else
      match splitSlash cs with
      | [] => [[c]]
      | p :: ps => (c :: p) :: ps

/-- Python `'/'.join(pieces)`. -/
def joinSlash : List (List Char) → List Char
  | [] => []
  | [p] => p
  | p :: ps => p ++ '/' :: joinSlash ps

/-- The two-character segment `..`. -/
def dotdot : List Char := ['.', '.']

/-- One step of the `for comp in comps` loop of `posixpath.normpath`. -/
def normStep (initialSlashes : Nat) (acc : List (List Char)) (comp : List Char) :
    List (List Char) :=
  if comp = [] ∨ comp = ['.'] then acc
  else if comp ≠ dotdot ∨ (initialSlashes = 0 ∧ acc = []) ∨
      (acc ≠ [] ∧ acc.getLast? = some dotdot) then
    acc ++ [comp]
  else if acc ≠ [] then acc.dropLast
  else acc

/-- The component-filtering loop of `posixpath.normpath`. -/
def normComps (initialSlashes : Nat) (comps : List (List Char)) : List (List Char) :=
  comps.foldl (normStep initialSlashes) []

/-- Number of leading slashes kept by `posixpath.normpath` (two are special
on POSIX, three or more collapse to one). -/
def initialSlashCount (s : List Char) : Nat :=
  if s.take 1 = ['/'] then
    if s.take 2 = ['/', '/'] ∧ s.take 3 ≠ ['/', '/', '/'] then 2 else 1
  else 0

/-- `posixpath.normpath` on a character list. -/
def normpathL (s : List Char) : List Char :=
  if s = [] then ['.']
  else
    let k := initialSlashCount s
    let comps := normComps k (splitSlash s)
    let j := List.replicate k '/' ++ joinSlash comps
    if j = [] then ['.'] else j

/-- `posixpath.normpath` on a `String`. -/
def normpath (s : String) : String := ⟨normpathL s.data⟩

/-- `s.startswith(pre)` on character lists (`leadsWith s pre` is true when
`pre` is a prefix of `s`). -/
def leadsWith : List Char → List Char → Bool
  | _, [] => true
  | [], _ :: _ => false
  | c :: cs, d :: ds => c = d && leadsWith cs ds

/-- Python `str.lstrip('/')`. -/
def dropSlashes : List Char → List Char
  | [] => []
  | c :: cs => if c = '/' then dropSlashes cs else c :: cs

/-- `posixpath.isabs`. -/
def isAbsL (s : List Char) : Bool :=
  match s with
  | [] => false
  | c :: _ => c = '/'

/-- Two-argument `posixpath.join`. -/
def joinL (a b : List Char) : List Char :=
  if isAbsL b then b
  else if a = [] ∨ a.getLast? = some '/' then a ++ b
  else a ++ '/' :: b

/-- `posixpath.abspath` relative to a current working directory `cwd`. -/
def abspathL (cwd s : List Char) : List Char :=
  if isAbsL s then normpathL s else normpathL (joinL cwd s)

/-- `p` names a location inside directory `d` (or `d` itself): the canonical
containment relation, equality or extension past a path-separator boundary. -/
def withinDirL (p d : List Char) : Prop :=
  p = d ∨ leadsWith p (d ++ ['/']) = true

instance (p d : List Char) : Decidable (withinDirL p d) := by
  unfold withinDirL; infer_instance

/-- `Tools._resolve_under_restriction`: join the candidate onto the resolved
restriction root with `pathlib` (an absolute candidate replaces the base),
canonicalize, and accept exactly when the result's string representation
starts with the root's string representation.  `base` is the already-resolved
restriction root (`Path(self.valves.root_restriction_directory).resolve()`).
-/
def resolveUnderRestriction (base p : String) : Except String String :=
  let joined := normpathL (joinL base.data p.data)
  if leadsWith joined base.data then Except.ok ⟨joined⟩
  else Except.error ("Path escapes restriction root: " ++ p)

/-- `os.path.dirname`. -/
def dirnameL (s : List Char) : List Char :=
  let headRev := s.reverse.dropWhile (fun c => c ≠ '/')
  let head := headRev.reverse
  if head = [] then []
  else if head.all (fun c => c = '/') then head
  else (head.reverse.dropWhile (fun c => c = '/')).reverse

/-- `os.path.basename`. -/
def baseNameL (p : List Char) : List Char :=
  (p.reverse.takeWhile (fun c => c ≠ '/')).reverse

/-- `Tools._sanitize_archive_path`: strip leading slashes, normalize, reject
a normalized path that starts with `..` (string check) or is absolute, join
onto the output directory and require the joined absolute path to start with
the output directory's absolute path.  `cwd` is the process working
directory used by `os.path.abspath`. -/
def sanitizeArchivePath (cwd : List Char) (memberPath outputDir : String) :
    Except String String :=
  let clean := normpathL (dropSlashes memberPath.data)
  if leadsWith clean dotdot || isAbsL clean then
    Except.error ("Unsafe archive member path: " ++ memberPath)
  else
    let final := joinL outputDir.data clean
    if leadsWith (abspathL cwd final) (abspathL cwd outputDir.data) then
      Except.ok ⟨final⟩
    else
      Except.error ("Archive member would extract outside target directory: " ++ memberPath)

/-- A filesystem side effect performed during extraction. -/
inductive FsEvent
  | mkdirs (p : String)
  | writeFile (p : String) (data : String)
deriving Repr, DecidableEq

/-- One entry of a ZIP container as `zipfile` presents it: a stored name and
the bytes `zipf.read(member)` returns (for an explicit directory entry the
stored name ends with a slash and the data is empty). -/
structure ZipEntry where
  name : String
  data : String
deriving Repr, DecidableEq

/-- The member kinds `_decompress_archive` distinguishes on a tar member:
`isfile()`, `isdir()`, and everything else (symlinks, devices, hard links).
-/
inductive TarKind
  | file
  | dir
  | other
deriving Repr, DecidableEq

/-- One entry of a tar container: stored name, kind, and file bytes. -/
structure TarEntry where
  name : String
  kind : TarKind
  data : String
deriving Repr, DecidableEq

/-- The ZIP loop of `Tools._decompress_archive`: every member is sanitized,
its parent directory created, and its bytes written to the sanitized path —
with no distinction between file and directory entries.  Returns the events
performed (in order) and either the extracted-path list (mapped through the
display function `disp`, standing for `_get_relative_path`) or the first
sanitization error, which aborts the loop. -/
def runZipEntries (cwd : List Char) (disp : String → String) (out : String) :
    List ZipEntry → List FsEvent × Except String (List String)
  | [] => ([], Except.ok [])
  | e :: rest =>
    match sanitizeArchivePath cwd e.name out with
    | Except.error msg => ([], Except.error msg)
    | Except.ok safe =>
      let r := runZipEntries cwd disp out rest
      (FsEvent.mkdirs ⟨dirnameL safe.data⟩ :: FsEvent.writeFile safe e.data :: r.1,
       r.2.map (fun l => disp safe :: l))

/-- The tar loop of `Tools._decompress_archive`: every member is sanitized
(even ignored kinds), a regular file gets its parent created and bytes
written, a directory entry is created with `makedirs`, anything else is
skipped. -/
def runTarEntries (cwd : List Char) (disp : String → String) (out : String) :
    List TarEntry → List FsEvent × Except String (List String)
  | [] => ([], Except.ok [])
  | e :: rest =>
    match sanitizeArchivePath cwd e.name out with
    | Except.error msg => ([], Except.error msg)
    | Except.ok safe =>
      match e.kind with
      | TarKind.file =>
        let r := runTarEntries cwd disp out rest
        (FsEvent.mkdirs ⟨dirnameL safe.data⟩ :: FsEvent.writeFile safe e.data :: r.1,
         r.2.map (fun l => disp safe :: l))
      | TarKind.dir =>
        let r := runTarEntries cwd disp out rest
        (FsEvent.mkdirs safe :: r.1, r.2)
      | TarKind.other => runTarEntries cwd disp out rest

/-- The contents handed to `_decompress_archive` by the archive library. -/
inductive ArchiveInput
  | zip (entries : List ZipEntry)
  | tar (entries : List TarEntry)
deriving Repr, DecidableEq

/-- The stored member names of an archive. -/
def archiveNames : ArchiveInput → List String
  | ArchiveInput.zip es => es.map ZipEntry.name
  | ArchiveInput.tar es => es.map TarEntry.name

/-- Python `str.endswith`. -/
def endsWithS (s suf : String) : Bool :=
  leadsWith s.data.reverse suf.data.reverse

/-- `Tools._decompress_archive`: dispatch on the file-name suffix
(`.zip`, `.tar`, `.tar.gz`, `.tgz`); any other suffix raises
`ValueError("Unsupported archive format")`.  Opening an archive whose bytes
do not match the chosen branch raises a `BadZipFile`/`TarError`, modelled as
an error. -/
def decompressArchive (cwd : List Char) (disp : String → String)
    (fileName : String) (content : ArchiveInput) (out : String) :
    List FsEvent × Except String (List String) :=
  if endsWithS fileName ".zip" then
    match content with
    | ArchiveInput.zip es => runZipEntries cwd disp out es
    | ArchiveInput.tar _ => ([], Except.error "Archive error: bad zip file")
  else if endsWithS fileName ".tar" || endsWithS fileName ".tar.gz" ||
      endsWithS fileName ".tgz" then
    match content with
    | ArchiveInput.tar es => runTarEntries cwd disp out es
    | ArchiveInput.zip _ => ([], Except.error "Archive error: bad tar file")
  else ([], Except.error "Unsupported archive format")

/-- The uniform result dictionary built by `Tools._result` (debug mode off),
restricted to the keys the decompress operation uses; an absent key is
`none`. -/
structure ResultEnvelope where
  ok : Bool
  action : String
  subjectType : String
  message : Option String := none
  error : Option String := none
  output : Option String := none
  extracted : Option (List String) := none
  count : Option Nat := none
deriving Repr, DecidableEq

/-- The tail of `Tools.decompress_file` after the archive and output paths
have been resolved and validated: run `_decompress_archive` and wrap the
outcome — a `ValueError` is caught and reported as `ok=false` with only the
error string, with no `extracted_files`/`count` fields. -/
def decompressEnvelope (cwd : List Char) (disp : String → String)
    (fileName : String) (content : ArchiveInput) (outPath : String) :
    List FsEvent × ResultEnvelope :=
  match decompressArchive cwd disp fileName content outPath with
  | (evs, Except.ok files) =>
      (evs, { ok := true, action := "decompress", subjectType := "file",
              message := some "Decompressed successfully",
              output := some (disp outPath),
              extracted := some files, count := some files.length })
  | (evs, Except.error msg) =>
      (evs, { ok := false, action := "decompress", subjectType := "file",
              error := some msg })

/-- The events the ZIP loop performs for the entries it reaches and accepts;
used to describe the state after an aborted extraction. -/
def zipEventsAll (cwd : List Char) (out : String) : List ZipEntry → List FsEvent
  | [] => []
  | e :: rest =>
    (match sanitizeArchivePath cwd e.name out with
     | Except.ok safe => [FsEvent.mkdirs ⟨dirnameL safe.data⟩, FsEvent.writeFile safe e.data]
     | Except.error _ => []) ++ zipEventsAll cwd out rest

/-- The events the tar loop performs for the entries it reaches and accepts;
used to describe the state after an aborted extraction. -/
def tarEventsAll (cwd : List Char) (out : String) : List TarEntry → List FsEvent
  | [] => []
  | e :: rest =>
    (match sanitizeArchivePath cwd e.name out with
     | Except.ok safe =>
       match e.kind with
       | TarKind.file =>
           [FsEvent.mkdirs ⟨dirnameL safe.data⟩, FsEvent.writeFile safe e.data]
       | TarKind.dir => [FsEvent.mkdirs safe]
       | TarKind.other => []
     | Except.error _ => []) ++ tarEventsAll cwd out rest

/-- A well-formed path segment: nonempty, slash-free, and neither `.` nor
`..`. -/
def goodSeg (s : List Char) : Prop :=
  s ≠ [] ∧ s ≠ ['.'] ∧ s ≠ dotdot ∧ '/' ∉ s

instance (s : List Char) : Decidable (goodSeg s) := by
  unfold goodSeg; infer_instance

/-- The claim's description of an unsafe archive member: after stripping
leading separators and normalizing, the stored path still begins with a
parent-escape segment, is absolute, or joins to a location outside the
output directory. -/
def memberEscapes (cwd : List Char) (name out : String) : Prop :=
  (normpathL (dropSlashes name.data) = dotdot ∨
    leadsWith (normpathL (dropSlashes name.data)) (dotdot ++ ['/']) = true) ∨
  isAbsL (normpathL (dropSlashes name.data)) = true ∨
  ¬ withinDirL (abspathL cwd (joinL out.data (normpathL (dropSlashes name.data))))
      (abspathL cwd out.data)

instance (cwd : List Char) (name out : String) :
    Decidable (memberEscapes cwd name out) := by
  unfold memberEscapes
  infer_instance

/-- A filesystem state: each path maps to the content of the regular file
stored there, or to `none` when nothing exists there.  Symlinks are outside
the model. -/
def FSm : Type := String → Option String

/-- Point update of a filesystem state. -/
def fsUpd (fs : FSm) (p : String) (v : Option String) : FSm :=
  fun q => if q = p then v else fs q

/-- `os.replace(src, dst)`: atomically move `src` onto `dst`. -/
def fsRename (fs : FSm) (src dst : String) : FSm :=
  match fs src with
  | some c => fsUpd (fsUpd fs src none) dst (some c)
  | none => fs

/-- The empty filesystem. -/
def fsEmpty : FSm := fun _ => none

/-- Where a single injected failure interrupts `Tools._atomic_write`:
while opening the temp file for writing (no content written yet), during the
content write (the temp file holds a partial prefix), at the rename (content
fully written, rename not performed), or nowhere. -/
inductive FailAt
  | opening
  | writing
  | renaming
  | nofail
deriving Repr, DecidableEq

/-- Outcome of an atomic-write run: the final filesystem, tagged with
whether the exception was propagated. -/
inductive AwOutcome
  | okState (fs : FSm)
  | errState (fs : FSm)

/-- `Tools._atomic_write` with an injected failure: `tempfile.mkstemp`
creates an empty temp file in the target's directory, the content is written
to it, and `os.replace` moves it onto the target; on any exception the temp
file is unlinked and the exception propagates.  Returns every filesystem
state reached before the rename commits, plus the outcome.  `part` is the
partial content present when the write itself is interrupted. -/
def atomicWriteRun (fs0 : FSm) (target temp content part : String) (fail : FailAt) :
    List FSm × AwOutcome :=
  let fs1 := fsUpd fs0 temp (some "")
  match fail with
  | FailAt.opening => ([fs0, fs1], AwOutcome.errState (fsUpd fs1 temp none))
  | FailAt.writing =>
      let fs2 := fsUpd fs1 temp (some part)
      ([fs0, fs1, fs2], AwOutcome.errState (fsUpd fs2 temp none))
  | FailAt.renaming =>
      let fs2 := fsUpd fs1 temp (some content)
      ([fs0, fs1, fs2], AwOutcome.errState (fsUpd fs2 temp none))
  | FailAt.nofail =>
      let fs2 := fsUpd fs1 temp (some content)
      ([fs0, fs1, fs2], AwOutcome.okState (fsRename fs2 temp target))

/-- The in-memory version table `self.versions`: a `defaultdict(list)` from
resolved file path to the ordered list of snapshot paths. -/
def VSt : Type := String → List String

/-- Point update of the version table. -/
def vUpd (st : VSt) (k : String) (v : List String) : VSt :=
  fun q => if q = k then v else st q

/-- The empty version table (`defaultdict(list)` yields `[]` for any key).
-/
def vEmpty : VSt := fun _ => []

/-- `os.path.splitext` on a basename: split off the extension at the last
dot, unless every character before that dot is itself a dot. -/
def splitextBase (b : List Char) : List Char × List Char :=
  let extRev := b.reverse.takeWhile (fun c => c ≠ '.')
  if extRev.length = b.length then (b, [])
  else
    let stemLen := b.length - extRev.length - 1
    if (b.take stemLen).all (fun c => c = '.') then (b, [])
    else (b.take stemLen, b.drop stemLen)

/-- `os.path.splitext` on a full path: only the basename is searched for the
extension dot. -/
def splitextL (p : List Char) : List Char × List Char :=
  let tailRev := p.reverse.takeWhile (fun c => c ≠ '/')
  let headLen := p.length - tailRev.length
  let se := splitextBase tailRev.reverse
  (p.take headLen ++ se.1, se.2)

/-- `Tools.save_file_version` after the existence/regular-file checks: the
caller path is resolved under the root, the next 1-based index is the length
of the recorded sequence plus one, the snapshot name is
`{base}_v{index}_{timestamp}{ext}` resolved under the root, the current
content is copied to the snapshot, and the snapshot path is appended to the
sequence. -/
def saveFileVersionFull (root : String) (st : VSt) (fs : FSm)
    (basePath fileName timestamp : String) : VSt × FSm × Except String (Nat × String) :=
  match resolveUnderRestriction root ⟨joinL basePath.data fileName.data⟩ with
  | Except.error e => (st, fs, Except.error e)
  | Except.ok filePath =>
    match fs filePath with
    | none => (st, fs, Except.error "File does not exist")
    | some c =>
      let idx := (st filePath).length + 1
      let se := splitextL fileName.data
      let vname : String :=
        ⟨se.1 ++ ('_' :: 'v' :: (Nat.repr idx).data) ++ ('_' :: timestamp.data) ++ se.2⟩
      match resolveUnderRestriction root ⟨joinL basePath.data vname.data⟩ with
      | Except.error e => (st, fs, Except.error e)
      | Except.ok vpath =>
        (vUpd st filePath (st filePath ++ [vpath]), fsUpd fs vpath (some c),
         Except.ok (idx, vpath))

/-- The distinct outcomes of `Tools.restore_file_version`. -/
inductive RestoreResult
  | escapeErr (msg : String)
  | rangeErr (requested : Int) (available : Nat)
  | missingErr (versionPath : String)
  | restored (path : String)
deriving Repr, DecidableEq

/-- `Tools.restore_file_version`: resolve the caller path, validate
`1 <= version <= len(sequence)` (reporting both the requested index and the
available count on failure), re-verify the chosen snapshot still exists on
disk (a distinct error if not), then copy the snapshot content back onto the
original path. -/
def restoreFileVersionFull (root : String) (st : VSt) (fs : FSm)
    (basePath fileName : String) (version : Int) : FSm × RestoreResult :=
  match resolveUnderRestriction root ⟨joinL basePath.data fileName.data⟩ with
  | Except.error e => (fs, RestoreResult.escapeErr e)
  | Except.ok filePath =>
    let avail := (st filePath).length
    if version < 1 ∨ (avail : Int) < version then
      (fs, RestoreResult.rangeErr version avail)
    else
      let vpath := (st filePath).getD (version - 1).toNat ""
      match fs vpath with
      | none => (fs, RestoreResult.missingErr vpath)
      | some c => (fsUpd fs filePath (some c), RestoreResult.restored filePath)

/-- An archive produced by `Tools.compress_file`: a ZIP, or a tar that is
gzip-compressed or not, holding (stored name, content) pairs. -/
inductive ArchiveOut
  | zipA (entries : List (String × String))
  | tarA (gz : Bool) (entries : List (String × String))
deriving Repr, DecidableEq

/-- `Tools.compress_file` after path resolution: check the source exists, is
a regular file and not a symlink, then dispatch on the requested format
string — exactly `"zip"`, `"tar"`, or `"gztar"` — writing the source under
its base name; any other format string yields the unsupported-format error.
-/
def compressFile (fs : FSm) (srcPath outPath format : String) (isLink : Bool) :
    Except String (String × ArchiveOut) :=
  match fs srcPath with
  | none => Except.error "Source file does not exist"
  | some c =>
    if isLink then Except.error "Cannot compress symlinks"
    else if format = "zip" then
      Except.ok (outPath, ArchiveOut.zipA [(⟨baseNameL srcPath.data⟩, c)])
    else if format = "tar" then
      Except.ok (outPath, ArchiveOut.tarA false [(⟨baseNameL srcPath.data⟩, c)])
    else if format = "gztar" then
      Except.ok (outPath, ArchiveOut.tarA true [(⟨baseNameL srcPath.data⟩, c)])
    else Except.error ("Unsupported compression format: " ++ format)

/-- The parsed components of a `pathlib.PurePosixPath`: empty pieces and
`.` pieces are dropped. -/
def pureParts (s : List Char) : List (List Char) :=
  (splitSlash s).filter (fun c => ¬ (c = [] ∨ c = ['.']))

/-- `str()` of a `PurePosixPath` from a root flag and parts. -/
def pureStr (ab : Bool) (parts : List (List Char)) : List Char :=
  if ab then '/' :: joinSlash parts
  else if parts = [] then ['.'] else joinSlash parts

/-- `str(PurePosixPath(a) / b)`: an absolute `b` replaces `a`, otherwise the
parts concatenate. -/
def purePathJoin (a b : List Char) : List Char :=
  if isAbsL b then pureStr true (pureParts b)
  else pureStr (isAbsL a) (pureParts a ++ pureParts b)

/-- Strip a leading run of components; `none` when it is not a prefix. -/
def stripPre : List (List Char) → List (List Char) → Option (List (List Char))
  | [], ys => some ys
  | _ :: _, [] => none
  | x :: xs, y :: ys => if x = y then stripPre xs ys else none

/-- `str(Path(p).relative_to(base))`: lexical component-prefix removal,
`'.'` when the two coincide, `none` (a `ValueError`) when `base` is not a
component prefix of `p`. -/
def relativeToL (p base : List Char) : Option (List Char) :=
  if isAbsL p = isAbsL base then
    match stripPre (pureParts base) (pureParts p) with
    | none => none
    | some rest => some (if rest = [] then ['.'] else joinSlash rest)
  else none

/-- `Tools._get_relative_path`: when relative-path mode is on, compute the
path relative to the resolved restriction root; if a spoof (display) root is
configured (non-empty) and resolves differently from the restriction root,
prepend the raw spoof root with a `pathlib` join; a path not under the root
is returned unchanged.  `cwd` is the working directory `Path.resolve` uses
for relative configuration values. -/
def getRelativePath (cwd : List Char) (rootDir spoofDir : String)
    (returnRel : Bool) (absPath : String) : String :=
  if ¬ returnRel then absPath
  else
    let displayRoot := if spoofDir ≠ "" then spoofDir else rootDir
    let base := normpathL (joinL cwd rootDir.data)
    let spoofBase := normpathL (joinL cwd displayRoot.data)
    match relativeToL absPath.data base with
    | none => absPath
    | some rel =>
      if spoofBase = base then ⟨rel⟩
      else ⟨purePathJoin displayRoot.data rel⟩

/-- Substring search on character lists (Python `pat in s`). -/
def strContainsL (pat : List Char) : List Char → Bool
  | [] => leadsWith [] pat
  | c :: cs => leadsWith (c :: cs) pat || strContainsL pat cs

/-- Python `pat in s` on strings. -/
def strContains (s pat : String) : Bool := strContainsL pat.data s.data

/-- A concrete run of three successive version saves on the same file, with
the file rewritten between saves: the initial filesystem holds `/r/f.txt`
with content `one`. -/
def fsV0 : FSm := fsUpd fsEmpty "/r/f.txt" (some "one")

/-- First save (timestamp `t1`). -/
def saveA : VSt × FSm × Except String (Nat × String) :=
  saveFileVersionFull "/r" vEmpty fsV0 "." "f.txt" "t1"

/-- The file is rewritten to `two` after the first save. -/
def fsV1 : FSm := fsUpd saveA.2.1 "/r/f.txt" (some "two")

/-- Second save (timestamp `t2`). -/
def saveB : VSt × FSm × Except String (Nat × String) :=
  saveFileVersionFull "/r" saveA.1 fsV1 "." "f.txt" "t2"

/-- The file is rewritten to `three` after the second save. -/
def fsV2 : FSm := fsUpd saveB.2.1 "/r/f.txt" (some "three")

/-- Third save (timestamp `t3`). -/
def saveC : VSt × FSm × Except String (Nat × String) :=
  saveFileVersionFull "/r" saveB.1 fsV2 "." "f.txt" "t3"

end FsTool

namespace FsTool

/-! ### Basic prefix lemmas -/

theorem leadsWith_iff (s pre : List Char) :
    leadsWith s pre = true ↔ ∃ t, s = pre ++ t := by
  induction pre generalizing s with
  | nil => simp [leadsWith]
  | cons d ds ih =>
    cases s with
    | nil =>
      simp [leadsWith]
    | cons c cs =>
      simp only [leadsWith, Bool.and_eq_true, decide_eq_true_eq, ih, List.cons_append,
        List.cons.injEq]
      constructor
      · rintro ⟨rfl, t, rfl⟩; exact ⟨t, rfl, rfl⟩
      · rintro ⟨t, rfl, rfl⟩; exact ⟨rfl, t, rfl⟩

theorem leadsWith_refl (s : List Char) : leadsWith s s = true := by
  rw [leadsWith_iff]; exact ⟨[], by simp⟩

theorem leadsWith_append (a b : List Char) : leadsWith (a ++ b) a = true := by
  rw [leadsWith_iff]; exact ⟨b, rfl⟩

theorem leadsWith_of_append {s a b : List Char}
    (h : leadsWith s (a ++ b) = true) : leadsWith s a = true := by
  rw [leadsWith_iff] at h ⊢
  obtain ⟨t, rfl⟩ := h
  exact ⟨b ++ t, by simp⟩

theorem leadsWith_comparable {a : List Char} :
    ∀ {b s : List Char}, leadsWith s a = true → leadsWith s b = true →
      leadsWith a b = true ∨ leadsWith b a = true := by
  induction a with
  | nil =>
    intro b s _ _
    right
    cases b <;> simp [leadsWith]
  | cons c cs ih =>
    intro b s ha hb
    cases b with
    | nil => left; simp [leadsWith]
    | cons d ds =>
      cases s with
      | nil => simp [leadsWith] at ha
      | cons e es =>
        simp only [leadsWith, Bool.and_eq_true, decide_eq_true_eq] at ha hb
        obtain ⟨rfl, ha2⟩ := ha
        obtain ⟨rfl, hb2⟩ := hb
        rcases ih ha2 hb2 with h | h
        · left; simp [leadsWith, h]
        · right; simp [leadsWith, h]

theorem withinDirL_leadsWith {p d : List Char} (h : withinDirL p d) :
    leadsWith p d = true := by
  rcases h with rfl | hpre
  · exact leadsWith_refl _
  · exact leadsWith_of_append (a := d) (b := ['/']) hpre

/-! ### Claims C1 and C9: the confinement check of `_resolve_under_restriction` -/

/-- C1: the claim requires that resolution succeed only when the canonical
join equals the canonical root or extends it past a path-separator boundary,
and that every candidate resolving outside the root fail with an escape
error.  The code checks a bare string `startswith` with no separator
boundary, so the sibling directory `/tmp/rootx` — outside the root
`/tmp/root` — is accepted and its resolved path is returned to callers
(and hence can flow to write/delete operations).  This theorem evaluates
the embedded resolver at that failing input. -/
theorem resolve_sibling_root_escape_accepted :
    resolveUnderRestriction "/tmp/root" "../rootx/secret" =
      Except.ok "/tmp/rootx/secret" ∧
    ¬ withinDirL "/tmp/rootx/secret".data "/tmp/root".data :=
  ⟨rfl, by decide⟩

/-- C9: an absolute candidate is not rejected merely for being absolute:
joining an absolute path onto the base with `pathlib` replaces the base, so
any absolute candidate whose canonical form lies inside the root is accepted
and that resolved path is returned, and a candidate that raises the escape
error necessarily resolves outside the root. -/
theorem resolve_absolute_candidate (root p : String)
    (habs : isAbsL p.data = true) :
    (withinDirL (normpathL p.data) root.data →
        resolveUnderRestriction root p = Except.ok ⟨normpathL p.data⟩) ∧
    (∀ msg, resolveUnderRestriction root p = Except.error msg →
        ¬ withinDirL (normpathL p.data) root.data) := by
  have hjoin : joinL root.data p.data = p.data := by
    unfold joinL; rw [habs]; simp
  constructor
  · intro hw
    have hl := withinDirL_leadsWith hw
    simp [resolveUnderRestriction, hjoin, hl]
  · intro msg herr hw
    have hl := withinDirL_leadsWith hw
    simp [resolveUnderRestriction, hjoin, hl] at herr

/-- Witness for C9: the absolute candidate `/tmp/root/a` lies inside the
root `/tmp/root` and is accepted. -/
theorem resolve_absolute_candidate_witness :
    resolveUnderRestriction "/tmp/root" "/tmp/root/a" =
      Except.ok ⟨normpathL "/tmp/root/a".data⟩ :=
  (resolve_absolute_candidate "/tmp/root" "/tmp/root/a" (by decide)).1 (by decide)

/-! ### Claim C3: atomic write -/

theorem fsUpd_same (fs : FSm) (p : String) (v : Option String) : fsUpd fs p v p = v := by
  simp [fsUpd]

theorem fsUpd_other (fs : FSm) {p q : String} (v : Option String) (h : q ≠ p) :
    fsUpd fs p v q = fs q := by
  simp [fsUpd, h]

/-- C3: if the atomic write fails at any injected point after the temporary
file is created (opening, mid-write, or just before the rename), the
outcome is the propagated error, the target's content is exactly what it was
before, and the temporary file is gone; every state reached before the
rename leaves the target untouched; and on success the target holds the new
content and the temporary file is gone, the replacement happening only at
the rename step. -/
theorem atomic_write_crash_safe (fs0 : FSm) (target temp content part : String)
    (fail : FailAt) (hne : temp ≠ target) :
    (fail ≠ FailAt.nofail →
      ∃ fsE, (atomicWriteRun fs0 target temp content part fail).2 = AwOutcome.errState fsE ∧
        fsE target = fs0 target ∧ fsE temp = none) ∧
    (∀ s ∈ (atomicWriteRun fs0 target temp content part fail).1, s target = fs0 target) ∧
    (fail = FailAt.nofail →
      ∃ fsR, (atomicWriteRun fs0 target temp content part fail).2 = AwOutcome.okState fsR ∧
        fsR target = some content ∧ fsR temp = none) := by
  have hne' : target ≠ temp := Ne.symm hne
  cases fail <;>
    simp [atomicWriteRun, fsRename, fsUpd_same, fsUpd_other, fsUpd, hne, hne']

/-- Witness for C3: a failure injected right before the rename, on a
filesystem whose target holds `old`. -/
theorem atomic_write_crash_safe_witness :
    (FailAt.renaming ≠ FailAt.nofail →
      ∃ fsE, (atomicWriteRun (fsUpd fsEmpty "/r/t.txt" (some "old")) "/r/t.txt" "/r/tmpX"
          "new" "ne" FailAt.renaming).2 = AwOutcome.errState fsE ∧
        fsE "/r/t.txt" = fsUpd fsEmpty "/r/t.txt" (some "old") "/r/t.txt" ∧
        fsE "/r/tmpX" = none) ∧
    (∀ s ∈ (atomicWriteRun (fsUpd fsEmpty "/r/t.txt" (some "old")) "/r/t.txt" "/r/tmpX"
        "new" "ne" FailAt.renaming).1,
      s "/r/t.txt" = fsUpd fsEmpty "/r/t.txt" (some "old") "/r/t.txt") ∧
    (FailAt.renaming = FailAt.nofail →
      ∃ fsR, (atomicWriteRun (fsUpd fsEmpty "/r/t.txt" (some "old")) "/r/t.txt" "/r/tmpX"
          "new" "ne" FailAt.renaming).2 = AwOutcome.okState fsR ∧
        fsR "/r/t.txt" = some "new" ∧ fsR "/r/tmpX" = none) :=
  atomic_write_crash_safe (fsUpd fsEmpty "/r/t.txt" (some "old")) "/r/t.txt" "/r/tmpX"
    "new" "ne" FailAt.renaming (by decide)

/-! ### Claims C4 and C5: the version store -/

theorem vUpd_same (st : VSt) (k : String) (v : List String) : vUpd st k v k = v := by
  simp [vUpd]

theorem vUpd_other (st : VSt) {k q : String} (v : List String) (h : q ≠ k) :
    vUpd st k v q = st q := by
  simp [vUpd, h]

/-- C4: a successful `save_file_version` resolves the caller path, assigns
the 1-based index `len(existing) + 1`, appends the snapshot path to that
key's sequence (leaving every other key untouched), and snapshots the
content the file has at that moment; concretely, three successive saves of
`/r/f.txt` — rewritten between saves — yield indices 1, 2, 3 and snapshots
holding `one`, `two`, `three` respectively. -/
theorem save_version_dense_append (root : String) (st : VSt) (fs : FSm)
    (basePath fileName timestamp : String) (idx : Nat) (vpath : String)
    (h : (saveFileVersionFull root st fs basePath fileName timestamp).2.2 =
      Except.ok (idx, vpath)) :
    (∃ fp, resolveUnderRestriction root ⟨joinL basePath.data fileName.data⟩ = Except.ok fp ∧
      idx = (st fp).length + 1 ∧
      (saveFileVersionFull root st fs basePath fileName timestamp).1 fp = st fp ++ [vpath] ∧
      (∀ k, k ≠ fp → (saveFileVersionFull root st fs basePath fileName timestamp).1 k = st k) ∧
      ∃ c, fs fp = some c ∧
        (saveFileVersionFull root st fs basePath fileName timestamp).2.1 vpath = some c) ∧
    (saveA.2.2 = Except.ok (1, "/r/f_v1_t1.txt") ∧
     saveB.2.2 = Except.ok (2, "/r/f_v2_t2.txt") ∧
     saveC.2.2 = Except.ok (3, "/r/f_v3_t3.txt") ∧
     saveC.1 "/r/f.txt" = ["/r/f_v1_t1.txt", "/r/f_v2_t2.txt", "/r/f_v3_t3.txt"] ∧
     saveC.2.1 "/r/f_v1_t1.txt" = some "one" ∧
     saveC.2.1 "/r/f_v2_t2.txt" = some "two" ∧
     saveC.2.1 "/r/f_v3_t3.txt" = some "three") := by
  refine ⟨?_, rfl, rfl, rfl, rfl, rfl, rfl, rfl⟩
  cases hres : resolveUnderRestriction root ⟨joinL basePath.data fileName.data⟩ with
  | error e => simp [saveFileVersionFull, hres] at h
  | ok fp =>
    cases hc : fs fp with
    | none => simp [saveFileVersionFull, hres, hc] at h
    | some c =>
      refine ⟨fp, rfl, ?_⟩
      simp only [saveFileVersionFull, hres, hc] at h ⊢
      split at h
      · simp at h
      · rename_i vp heq
        simp only [Except.ok.injEq, Prod.mk.injEq] at h
        obtain ⟨hidx, hvp⟩ := h
        subst hvp
        subst hidx
        simp only [heq]
        refine ⟨?_, ?_, ?_, ?_⟩
        · simp
        · exact vUpd_same st fp (st fp ++ [vp])
        · intro k hk; exact vUpd_other st _ hk
        · exact ⟨c, by simp [hc], fsUpd_same fs vp (some c)⟩

/-- Witness for C4: the first save of the concrete chain. -/
theorem save_version_dense_append_witness :
    ∃ fp, resolveUnderRestriction "/r" ⟨joinL ".".data "f.txt".data⟩ = Except.ok fp ∧
      1 = (vEmpty fp).length + 1 ∧
      saveA.1 fp = vEmpty fp ++ ["/r/f_v1_t1.txt"] ∧
      (∀ k, k ≠ fp → saveA.1 k = vEmpty k) ∧
      ∃ c, fsV0 fp = some c ∧ saveA.2.1 "/r/f_v1_t1.txt" = some c :=
  (save_version_dense_append "/r" vEmpty fsV0 "." "f.txt" "t1" 1 "/r/f_v1_t1.txt" rfl).1

/-- C5: with the caller path resolving to `fp`, `restore_file_version`
fails with a range error carrying both the requested index and the available
count whenever the index is outside `[1, count]`; and when the index is in
range but the recorded snapshot no longer exists on disk, it fails with the
distinct snapshot-missing error and mutates nothing. -/
theorem restore_version_errors (root : String) (st : VSt) (fs : FSm)
    (basePath fileName : String) (version : Int) (fp : String)
    (hres : resolveUnderRestriction root ⟨joinL basePath.data fileName.data⟩ =
      Except.ok fp) :
    ((version < 1 ∨ ((st fp).length : Int) < version) →
      restoreFileVersionFull root st fs basePath fileName version =
        (fs, RestoreResult.rangeErr version (st fp).length)) ∧
    ((1 ≤ version ∧ version ≤ ((st fp).length : Int)) →
      fs ((st fp).getD (version - 1).toNat "") = none →
      restoreFileVersionFull root st fs basePath fileName version =
        (fs, RestoreResult.missingErr ((st fp).getD (version - 1).toNat ""))) := by
  constructor
  · intro hout
    simp only [restoreFileVersionFull, hres]
    rw [if_pos hout]
  · intro hin hmiss
    have hcond : ¬ (version < 1 ∨ ((st fp).length : Int) < version) := by omega
    simp only [restoreFileVersionFull, hres]
    rw [if_neg hcond, hmiss]

/-- Witness for C5: on the concrete three-save chain, requesting version 5
yields the range error `(5, 3)`, and requesting version 2 after the second
snapshot was deleted out-of-band yields the snapshot-missing error. -/
theorem restore_version_errors_witness :
    (restoreFileVersionFull "/r" saveC.1 saveC.2.1 "." "f.txt" 5 =
      (saveC.2.1, RestoreResult.rangeErr 5 (saveC.1 "/r/f.txt").length)) ∧
    (restoreFileVersionFull "/r" saveC.1 (fsUpd saveC.2.1 "/r/f_v2_t2.txt" none)
        "." "f.txt" 2 =
      (fsUpd saveC.2.1 "/r/f_v2_t2.txt" none,
       RestoreResult.missingErr ((saveC.1 "/r/f.txt").getD ((2 : Int) - 1).toNat ""))) :=
  ⟨(restore_version_errors "/r" saveC.1 saveC.2.1 "." "f.txt" 5 "/r/f.txt" rfl).1
      (by decide),
   (restore_version_errors "/r" saveC.1 (fsUpd saveC.2.1 "/r/f_v2_t2.txt" none)
      "." "f.txt" 2 "/r/f.txt" rfl).2 (by decide) (by decide)⟩

/-! ### Claim C6: the compression format enumeration -/

/-- C6 counterexample: on a filesystem where `/r/f.txt` exists as a regular
non-symlink file, requesting format `tar.gz` does not produce an archive —
the code dispatches on the literal strings `zip`, `tar`, `gztar`, so
`tar.gz` falls through to the unsupported-format error. -/
theorem compress_targz_format_rejected :
    compressFile fsV0 "/r/f.txt" "/r/f.tar.gz" "tar.gz" false =
      Except.error "Unsupported compression format: tar.gz" := rfl

/-- C6 amended: the supported format strings are exactly `zip`, `tar` and
`gztar`; requesting `gztar` on an existing regular non-symlink source file
produces a gzip-compressed tar archive containing the file under its base
name, and any requested format outside this enum fails with the
unsupported-format error. -/
theorem compress_format_enum (fs : FSm) (srcPath outPath : String) (c : String)
    (hsrc : fs srcPath = some c) :
    (compressFile fs srcPath outPath "gztar" false =
        Except.ok (outPath, ArchiveOut.tarA true [(⟨baseNameL srcPath.data⟩, c)])) ∧
    (∀ format, format ≠ "zip" → format ≠ "tar" → format ≠ "gztar" →
        compressFile fs srcPath outPath format false =
          Except.error ("Unsupported compression format: " ++ format)) := by
  constructor
  · simp [compressFile, hsrc]
  · intro format h1 h2 h3
    simp [compressFile, hsrc, h1, h2, h3]

/-- Witness for C6: the `gztar` format on the concrete file `/r/f.txt`, and
the rejection of the `rar` format. -/
theorem compress_format_enum_witness :
    (compressFile fsV0 "/r/f.txt" "/r/out.tar.gz" "gztar" false =
        Except.ok ("/r/out.tar.gz", ArchiveOut.tarA true [(⟨baseNameL "/r/f.txt".data⟩, "one")])) ∧
    (∀ format, format ≠ "zip" → format ≠ "tar" → format ≠ "gztar" →
        compressFile fsV0 "/r/f.txt" "/r/out.tar.gz" format false =
          Except.error ("Unsupported compression format: " ++ format)) :=
  compress_format_enum fsV0 "/r/f.txt" "/r/out.tar.gz" "one" (by decide)

/-! ### Structure of `posixpath.normpath`, toward claim C2 -/

theorem splitSlash_ne_nil (s : List Char) : splitSlash s ≠ [] := by
  cases s with
  | nil => simp [splitSlash]
  | cons c cs =>
    simp only [splitSlash]
    split
    · simp
    · split <;> simp

theorem splitSlash_cons_slash (t : List Char) :
    splitSlash ('/' :: t) = [] :: splitSlash t := by
  simp [splitSlash]

theorem splitSlash_cons_other {c : Char} (hc : c ≠ '/') (t : List Char) :
    splitSlash (c :: t) =
      match splitSlash t with
      | [] => [[c]]
      | q :: qs => (c :: q) :: qs := by
  simp [splitSlash, hc]

theorem splitSlash_append (a b : List Char) :
    splitSlash (a ++ '/' :: b) = splitSlash a ++ splitSlash b := by
  induction a with
  | nil => simp [splitSlash]
  | cons c cs ih =>
    by_cases hc : c = '/'
    · subst hc
      rw [List.cons_append, splitSlash_cons_slash, splitSlash_cons_slash, ih]
      simp
    · cases hsc : splitSlash cs with
      | nil => exact absurd hsc (splitSlash_ne_nil cs)
      | cons p ps =>
        rw [List.cons_append, splitSlash_cons_other hc, splitSlash_cons_other hc,
          ih, hsc]
        simp

theorem mem_splitSlash_no_slash (s : List Char) :
    ∀ p ∈ splitSlash s, '/' ∉ p := by
  induction s with
  | nil =>
    intro p hp
    simp [splitSlash] at hp
    subst hp
    simp
  | cons c cs ih =>
    intro p hp
    by_cases hc : c = '/'
    · subst hc
      rw [splitSlash_cons_slash] at hp
      rcases List.mem_cons.1 hp with rfl | hp
      · simp
      · exact ih p hp
    · cases hsc : splitSlash cs with
      | nil => exact absurd hsc (splitSlash_ne_nil cs)
      | cons q qs =>
        rw [splitSlash_cons_other hc, hsc] at hp
        rcases List.mem_cons.1 hp with rfl | hp
        · intro hm
          rcases List.mem_cons.1 hm with hm | hm
          · exact hc hm.symm
          · exact ih q (by rw [hsc]; exact List.mem_cons_self q qs) hm
        · exact ih p (by rw [hsc]; exact List.mem_cons_of_mem q hp)

theorem splitSlash_no_slash (s : List Char) (h : '/' ∉ s) : splitSlash s = [s] := by
  induction s with
  | nil => simp [splitSlash]
  | cons c cs ih =>
    have hc : c ≠ '/' := fun e => h (by simp [e])
    have hcs : '/' ∉ cs := fun m => h (List.mem_cons_of_mem c m)
    simp [splitSlash, hc, ih hcs]

theorem splitSlash_joinSlash (segs : List (List Char)) (hne : segs ≠ [])
    (hfree : ∀ x ∈ segs, '/' ∉ x) : splitSlash (joinSlash segs) = segs := by
  induction segs with
  | nil => exact absurd rfl hne
  | cons x rest ih =>
    cases rest with
    | nil => simp [joinSlash, splitSlash_no_slash x (hfree x (by simp))]
    | cons y ys =>
      have hx : joinSlash (x :: y :: ys) = x ++ '/' :: joinSlash (y :: ys) := rfl
      rw [hx, splitSlash_append, splitSlash_no_slash x (hfree x (by simp)),
        ih (by simp) (fun z hz => hfree z (List.mem_cons_of_mem x hz))]
      simp

theorem joinSlash_append (xs ys : List (List Char)) (hx : xs ≠ []) (hy : ys ≠ []) :
    joinSlash (xs ++ ys) = joinSlash xs ++ '/' :: joinSlash ys := by
  induction xs with
  | nil => exact absurd rfl hx
  | cons x rest ih =>
    cases rest with
    | nil =>
      cases ys with
      | nil => exact absurd rfl hy
      | cons y ys2 => simp [joinSlash]
    | cons r rs =>
      have h1 : joinSlash ((x :: r :: rs) ++ ys) = x ++ '/' :: joinSlash ((r :: rs) ++ ys) := by
        cases ys with
        | nil => exact absurd rfl hy
        | cons y ys2 => rfl
      rw [h1, ih (by simp)]
      simp [joinSlash]

theorem joinSlash_cons_head (c : Char) (cr : List Char) (gs : List (List Char)) :
    ∃ t, joinSlash ((c :: cr) :: gs) = c :: t := by
  cases gs with
  | nil => exact ⟨cr, rfl⟩
  | cons y ys => exact ⟨cr ++ '/' :: joinSlash (y :: ys), rfl⟩

theorem mem_of_getLast?_eq {α : Type} {l : List α} {a : α} (h : l.getLast? = some a) :
    a ∈ l := by
  induction l with
  | nil => simp at h
  | cons x xs ih =>
    cases xs with
    | nil =>
      simp only [List.getLast?_singleton, Option.some.injEq] at h
      simp [h]
    | cons y ys =>
      rw [List.getLast?_cons_cons] at h
      exact List.mem_cons_of_mem x (ih h)

theorem mem_of_mem_dropLast {α : Type} {l : List α} {a : α} (h : a ∈ l.dropLast) :
    a ∈ l := by
  induction l with
  | nil => simp at h
  | cons x xs ih =>
    cases xs with
    | nil => simp at h
    | cons y ys =>
      rw [List.dropLast_cons₂] at h
      rcases List.mem_cons.1 h with rfl | h'
      · exact List.mem_cons_self _ _
      · exact List.mem_cons_of_mem _ (ih h')

theorem joinSlash_getLast_ne_slash (segs : List (List Char)) (hne : segs ≠ [])
    (hg : ∀ s ∈ segs, s ≠ [] ∧ '/' ∉ s) :
    ∀ z, (joinSlash segs).getLast? = some z → z ≠ '/' := by
  induction segs with
  | nil => exact absurd rfl hne
  | cons x rest ih =>
    cases rest with
    | nil =>
      intro z hz
      have hm : z ∈ x := mem_of_getLast?_eq (l := x) (by simpa [joinSlash] using hz)
      exact fun e => (hg x (by simp)).2 (e ▸ hm)
    | cons y ys =>
      intro z hz
      have hd : joinSlash (x :: y :: ys) = x ++ '/' :: joinSlash (y :: ys) := rfl
      rw [hd, List.getLast?_append_cons] at hz
      obtain ⟨hyne, _⟩ := hg y (by simp)
      obtain ⟨c, cr, rfl⟩ := List.exists_cons_of_ne_nil hyne
      obtain ⟨t, ht⟩ := joinSlash_cons_head c cr ys
      rw [ht, List.getLast?_cons_cons] at hz
      refine ih (by simp) (fun s hs => hg s (List.mem_cons_of_mem x hs)) z ?_
      rw [ht]
      exact hz

theorem normStep_preserves (k : Nat) (acc : List (List Char)) (comp : List Char)
    (m : Nat) (goods : List (List Char))
    (hacc : acc = List.replicate m dotdot ++ goods)
    (hg : ∀ g ∈ goods, g ≠ [] ∧ g ≠ ['.'] ∧ g ≠ dotdot) :
    ∃ m' goods', normStep k acc comp = List.replicate m' dotdot ++ goods' ∧
      ∀ g ∈ goods', g ≠ [] ∧ g ≠ ['.'] ∧ g ≠ dotdot := by
  unfold normStep
  split
  · exact ⟨m, goods, hacc, hg⟩
  · rename_i h1
    split
    · rename_i h2
      by_cases hdd : comp = dotdot
      · subst hdd
        have hgoods : goods = [] := by
          rcases h2 with h2 | ⟨_, hnil⟩ | ⟨_, hlast⟩
          · exact absurd rfl h2
          · rw [hacc] at hnil
            exact (List.append_eq_nil.1 hnil).2
          · by_contra hgn
            obtain ⟨q, qs, rfl⟩ := List.exists_cons_of_ne_nil hgn
            rw [hacc, List.getLast?_append_cons] at hlast
            have hm := mem_of_getLast?_eq hlast
            exact (hg dotdot hm).2.2 rfl
        subst hgoods
        refine ⟨m + 1, [], ?_, by simp⟩
        rw [hacc, List.replicate_succ' m dotdot]
        simp
      · refine ⟨m, goods ++ [comp], by rw [hacc]; simp, ?_⟩
        intro g hgm
        rcases List.mem_append.1 hgm with h | h
        · exact hg g h
        · simp only [List.mem_singleton] at h
          subst h
          push_neg at h1
          exact ⟨h1.1, h1.2, hdd⟩
    · split
      · rename_i h3 h4
        by_cases hgnil : goods = []
        · subst hgnil
          have hm : m ≠ 0 := by
            intro hm0
            rw [hacc, hm0] at h4
            simp at h4
          obtain ⟨n, rfl⟩ := Nat.exists_eq_succ_of_ne_zero hm
          refine ⟨n, [], ?_, by simp⟩
          rw [hacc, List.replicate_succ' n dotdot]
          simp
        · obtain ⟨gs, g, rfl⟩ := List.eq_nil_or_concat goods |>.resolve_left hgnil
          refine ⟨m, gs, ?_, fun x hx => hg x (by simp [List.concat_eq_append, hx])⟩
          rw [hacc, List.concat_eq_append, ← List.append_assoc, List.dropLast_concat]
      · exact ⟨m, goods, hacc, hg⟩

theorem normComps_structure (k : Nat) (comps : List (List Char)) :
    ∀ (acc : List (List Char)) (m : Nat) (goods : List (List Char)),
      acc = List.replicate m dotdot ++ goods →
      (∀ g ∈ goods, g ≠ [] ∧ g ≠ ['.'] ∧ g ≠ dotdot) →
      ∃ m' goods', comps.foldl (normStep k) acc = List.replicate m' dotdot ++ goods' ∧
        ∀ g ∈ goods', g ≠ [] ∧ g ≠ ['.'] ∧ g ≠ dotdot := by
  induction comps with
  | nil =>
    intro acc m goods h1 h2
    exact ⟨m, goods, h1, h2⟩
  | cons c cs ih =>
    intro acc m goods h1 h2
    obtain ⟨m', goods', hstep, hg'⟩ := normStep_preserves k acc c m goods h1 h2
    rw [List.foldl_cons]
    exact ih (normStep k acc c) m' goods' hstep hg'

theorem normStep_subset (k : Nat) (acc : List (List Char)) (comp : List Char) :
    ∀ x ∈ normStep k acc comp, x ∈ acc ∨ x = comp := by
  unfold normStep
  split
  · intro x hx; exact Or.inl hx
  · split
    · intro x hx
      rcases List.mem_append.1 hx with h | h
      · exact Or.inl h
      · simp only [List.mem_singleton] at h
        exact Or.inr h
    · split
      · intro x hx
        exact Or.inl (mem_of_mem_dropLast hx)
      · intro x hx; exact Or.inl hx

theorem normComps_slashfree (k : Nat) :
    ∀ (comps acc : List (List Char)),
      (∀ x ∈ comps, '/' ∉ x) → (∀ x ∈ acc, '/' ∉ x) →
      ∀ x ∈ comps.foldl (normStep k) acc, '/' ∉ x := by
  intro comps
  induction comps with
  | nil =>
    intro acc _ ha x hx
    exact ha x hx
  | cons c cs ih =>
    intro acc hc ha x hx
    rw [List.foldl_cons] at hx
    refine ih _ (fun z hz => hc z (List.mem_cons_of_mem c hz)) ?_ x hx
    intro y hy
    rcases normStep_subset k acc c y hy with h | rfl
    · exact ha y h
    · exact hc _ (List.mem_cons_self _ _)

theorem foldl_normStep_good (k : Nat) (segs : List (List Char))
    (h : ∀ s ∈ segs, s ≠ [] ∧ s ≠ ['.'] ∧ s ≠ dotdot) :
    ∀ acc, segs.foldl (normStep k) acc = acc ++ segs := by
  induction segs with
  | nil => intro acc; simp
  | cons s rest ih =>
    intro acc
    have hs := h s (List.mem_cons_self s rest)
    have hstep : normStep k acc s = acc ++ [s] := by
      unfold normStep
      rw [if_neg (not_or.mpr ⟨hs.1, hs.2.1⟩), if_pos (Or.inl hs.2.2)]
    rw [List.foldl_cons, hstep, ih (fun z hz => h z (List.mem_cons_of_mem s hz))]
    simp

theorem dropSlashes_head (s : List Char) :
    dropSlashes s = [] ∨ ∃ c cs, dropSlashes s = c :: cs ∧ c ≠ '/' := by
  induction s with
  | nil => exact Or.inl rfl
  | cons c cs ih =>
    by_cases hc : c = '/'
    · subst hc
      simpa [dropSlashes] using ih
    · exact Or.inr ⟨c, cs, by simp [dropSlashes, hc], hc⟩

theorem initialSlashCount_cons_ne {c : Char} (hc : c ≠ '/') (cs : List Char) :
    initialSlashCount (c :: cs) = 0 := by
  simp [initialSlashCount, hc]

theorem initialSlashCount_slash_cons {c : Char} (hc : c ≠ '/') (t : List Char) :
    initialSlashCount ('/' :: c :: t) = 1 := by
  simp [initialSlashCount, hc]

theorem joinSlash_cons_append (x : List Char) (gs : List (List Char)) :
    ∃ t, joinSlash (x :: gs) = x ++ t := by
  cases gs with
  | nil => exact ⟨[], by simp [joinSlash]⟩
  | cons y ys => exact ⟨'/' :: joinSlash (y :: ys), rfl⟩

theorem normpathL_rel_core (r : List Char)
    (hr : r = [] ∨ ∃ c cs, r = c :: cs ∧ c ≠ '/')
    (h : leadsWith (normpathL r) dotdot = false) :
    normpathL r = ['.'] ∨
      ∃ goods, goods ≠ [] ∧ (∀ g ∈ goods, goodSeg g) ∧ normpathL r = joinSlash goods := by
  rcases hr with rfl | ⟨c, cs, rfl, hc⟩
  · exact Or.inl rfl
  · have hk : initialSlashCount (c :: cs) = 0 := initialSlashCount_cons_ne hc cs
    obtain ⟨m, goods, hcomps, hgood⟩ :=
      normComps_structure 0 (splitSlash (c :: cs)) [] 0 [] (by simp) (by simp)
    have hfree : ∀ x ∈ normComps 0 (splitSlash (c :: cs)), '/' ∉ x :=
      normComps_slashfree 0 (splitSlash (c :: cs)) []
        (mem_splitSlash_no_slash (c :: cs)) (by simp)
    have hnf : normpathL (c :: cs) =
        if joinSlash (normComps 0 (splitSlash (c :: cs))) = [] then ['.']
        else joinSlash (normComps 0 (splitSlash (c :: cs))) := by
      simp [normpathL, hk, normComps]
    have hcomps' : normComps 0 (splitSlash (c :: cs)) =
        List.replicate m dotdot ++ goods := hcomps
    cases m with
    | zero =>
      simp only [List.replicate, List.nil_append] at hcomps'
      rw [hnf, hcomps'] at h ⊢
      cases goods with
      | nil => exact Or.inl (by simp [joinSlash])
      | cons g gs =>
        right
        refine ⟨g :: gs, by simp, ?_, ?_⟩
        · intro x hx
          have h3 := hgood x hx
          have h4 : '/' ∉ x := hfree x (by rw [hcomps']; exact hx)
          exact ⟨h3.1, h3.2.1, h3.2.2, h4⟩
        · have hgne : g ≠ [] := (hgood g (List.mem_cons_self g gs)).1
          obtain ⟨c2, cr, rfl⟩ := List.exists_cons_of_ne_nil hgne
          obtain ⟨t, ht⟩ := joinSlash_cons_head c2 cr gs
          rw [if_neg (by rw [ht]; simp)]
    | succ n =>
      exfalso
      have hdd : normComps 0 (splitSlash (c :: cs)) =
          dotdot :: (List.replicate n dotdot ++ goods) := by
        rw [hcomps', List.replicate_succ, List.cons_append]
      rw [hnf, hdd] at h
      obtain ⟨t, ht⟩ := joinSlash_cons_append dotdot (List.replicate n dotdot ++ goods)
      rw [if_neg (by rw [ht]; simp [dotdot]), ht] at h
      rw [leadsWith_append] at h
      exact Bool.true_eq_false.mp h

theorem normpathL_rel_structure (s : List Char)
    (h : leadsWith (normpathL (dropSlashes s)) dotdot = false) :
    normpathL (dropSlashes s) = ['.'] ∨
      ∃ goods, goods ≠ [] ∧ (∀ g ∈ goods, goodSeg g) ∧
        normpathL (dropSlashes s) = joinSlash goods :=
  normpathL_rel_core (dropSlashes s) (dropSlashes_head s) h

theorem normpathL_abs_of_comps (P E : List (List Char)) (c : Char) (cr : List Char)
    (hfree : ∀ s ∈ P, '/' ∉ s) (hP : P ≠ [])
    (hhd : P.head? = some (c :: cr)) (hc : c ≠ '/')
    (hcomps : normComps 1 ([] :: P) = E) :
    normpathL ('/' :: joinSlash P) = '/' :: joinSlash E := by
  obtain ⟨x, P2, rfl⟩ := List.exists_cons_of_ne_nil hP
  simp only [List.head?_cons, Option.some.injEq] at hhd
  subst hhd
  obtain ⟨t, ht⟩ := joinSlash_cons_head c cr P2
  have hsplit : splitSlash ('/' :: joinSlash ((c :: cr) :: P2)) =
      [] :: (c :: cr) :: P2 := by
    rw [splitSlash_cons_slash, splitSlash_joinSlash _ (by simp) hfree]
  have hk : initialSlashCount ('/' :: joinSlash ((c :: cr) :: P2)) = 1 := by
    rw [ht]
    exact initialSlashCount_slash_cons hc t
  simp only [normpathL, hk, hsplit, normComps] at *
  rw [if_neg (by simp)]
  simp only [hcomps]
  rw [if_neg (by simp)]
  simp

theorem isAbsL_head_ne {c : Char} (hc : c ≠ '/') (t : List Char) :
    isAbsL (c :: t) = false := by
  simp [isAbsL, hc]

theorem normpathL_clean_abs (segs : List (List Char)) (hg : ∀ s ∈ segs, goodSeg s) :
    normpathL ('/' :: joinSlash segs) = '/' :: joinSlash segs := by
  cases segs with
  | nil => decide
  | cons g gs =>
    obtain ⟨hne, _, _, hfree⟩ := hg g (List.mem_cons_self g gs)
    obtain ⟨c, cr, rfl⟩ := List.exists_cons_of_ne_nil hne
    have hc : c ≠ '/' := fun e => hfree (by simp [e])
    refine normpathL_abs_of_comps ((c :: cr) :: gs) ((c :: cr) :: gs) c cr
      (fun s hs => (hg s hs).2.2.2) (by simp) (by simp) hc ?_
    show ([] :: (c :: cr) :: gs).foldl (normStep 1) [] = (c :: cr) :: gs
    rw [List.foldl_cons]
    have h0 : normStep 1 [] [] = [] := by simp [normStep]
    rw [h0]
    exact (foldl_normStep_good 1 _
      (fun s hs => ⟨(hg s hs).1, (hg s hs).2.1, (hg s hs).2.2.1⟩) []).trans (by simp)

theorem normpathL_out_dot (segs : List (List Char)) (hg : ∀ s ∈ segs, goodSeg s)
    (hne : segs ≠ []) :
    normpathL (('/' :: joinSlash segs) ++ ['/', '.']) = '/' :: joinSlash segs := by
  have hjoin : (('/' :: joinSlash segs) ++ ['/', '.'] : List Char) =
      '/' :: joinSlash (segs ++ [['.']]) := by
    rw [joinSlash_append segs [['.']] hne (by simp)]
    simp [joinSlash]
  rw [hjoin]
  obtain ⟨g, gs, rfl⟩ := List.exists_cons_of_ne_nil hne
  obtain ⟨hgne, _, _, hfree⟩ := hg g (List.mem_cons_self g gs)
  obtain ⟨c, cr, rfl⟩ := List.exists_cons_of_ne_nil hgne
  have hc : c ≠ '/' := fun e => hfree (by simp [e])
  refine normpathL_abs_of_comps _ ((c :: cr) :: gs) c cr ?_ (by simp) (by simp) hc ?_
  · intro s hs
    rcases List.mem_append.1 hs with h | h
    · exact (hg s h).2.2.2
    · simp only [List.mem_singleton] at h
      subst h
      simp
  · show ((([] : List Char) :: (((c :: cr) :: gs) ++ [['.']])).foldl (normStep 1) []) =
      (c :: cr) :: gs
    rw [List.foldl_cons]
    have h0 : normStep 1 [] [] = [] := by simp [normStep]
    have hfold : List.foldl (normStep 1) [] ((c :: cr) :: gs) = (c :: cr) :: gs := by
      have := foldl_normStep_good 1 ((c :: cr) :: gs)
        (fun s hs => ⟨(hg s hs).1, (hg s hs).2.1, (hg s hs).2.2.1⟩) []
      simpa using this
    rw [h0, List.foldl_append, hfold]
    simp only [List.foldl_cons, List.foldl_nil]
    simp [normStep]

theorem normpathL_out_goods (segs goods : List (List Char))
    (hg : ∀ s ∈ segs, goodSeg s) (hgo : ∀ s ∈ goods, goodSeg s)
    (hne : segs ≠ []) (hgne : goods ≠ []) :
    normpathL (('/' :: joinSlash segs) ++ '/' :: joinSlash goods) =
      ('/' :: joinSlash segs) ++ '/' :: joinSlash goods := by
  have hjoin : (('/' :: joinSlash segs) ++ '/' :: joinSlash goods : List Char) =
      '/' :: joinSlash (segs ++ goods) := by
    rw [joinSlash_append segs goods hne hgne]
    simp
  rw [hjoin]
  exact normpathL_clean_abs (segs ++ goods)
    (fun s hs => (List.mem_append.1 hs).elim (hg s) (hgo s))

theorem cleanDir_getLast_ne_slash (segs : List (List Char)) (hne : segs ≠ [])
    (hg : ∀ s ∈ segs, goodSeg s) :
    ('/' :: joinSlash segs).getLast? ≠ some '/' := by
  intro h
  obtain ⟨g, gs, rfl⟩ := List.exists_cons_of_ne_nil hne
  obtain ⟨hgne, _, _, hfree⟩ := hg g (List.mem_cons_self g gs)
  obtain ⟨c, cr, rfl⟩ := List.exists_cons_of_ne_nil hgne
  obtain ⟨t, ht⟩ := joinSlash_cons_head c cr gs
  rw [ht, List.getLast?_cons_cons] at h
  exact joinSlash_getLast_ne_slash ((c :: cr) :: gs) (by simp)
    (fun s hs => ⟨(hg s hs).1, (hg s hs).2.2.2⟩) '/' (by rw [ht]; exact h) rfl

theorem joinL_clean_dir (segs : List (List Char)) (hne : segs ≠ [])
    (hg : ∀ s ∈ segs, goodSeg s) (b : List Char) (hb : isAbsL b = false) :
    joinL ('/' :: joinSlash segs) b = ('/' :: joinSlash segs) ++ '/' :: b := by
  have h1 : ¬ (isAbsL b = true) := by simp [hb]
  have h2 : ¬ (('/' :: joinSlash segs : List Char) = [] ∨
      ('/' :: joinSlash segs).getLast? = some '/') :=
    not_or.mpr ⟨by simp, cleanDir_getLast_ne_slash segs hne hg⟩
  unfold joinL
  rw [if_neg h1, if_neg h2]

theorem sanitize_ok_shape (cwd : List Char) (name out : String)
    (segs : List (List Char)) (hsegs : out.data = '/' :: joinSlash segs)
    (hg : ∀ s ∈ segs, goodSeg s) (hne : segs ≠ [])
    (safe : String) (hok : sanitizeArchivePath cwd name out = Except.ok safe) :
    ∃ rel, safe.data = out.data ++ '/' :: rel ∧
      (rel = ['.'] ∨ ∃ gs, gs ≠ [] ∧ (∀ s ∈ gs, goodSeg s) ∧ rel = joinSlash gs) := by
  simp only [sanitizeArchivePath] at hok
  split at hok
  · exact absurd hok (by simp)
  · rename_i hb
    split at hok
    · simp only [Except.ok.injEq] at hok
      subst hok
      simp only [Bool.or_eq_true, not_or, Bool.not_eq_true] at hb
      obtain ⟨hb1, hb2⟩ := hb
      rcases normpathL_rel_structure name.data hb1 with hdot | ⟨goods, hgne, hggood, hjoin⟩
      · refine ⟨['.'], ?_, Or.inl rfl⟩
        show joinL out.data (normpathL (dropSlashes name.data)) = out.data ++ '/' :: ['.']
        rw [hdot, hsegs]
        exact joinL_clean_dir segs hne hg ['.'] (by simp [isAbsL])
      · refine ⟨joinSlash goods, ?_, Or.inr ⟨goods, hgne, hggood, rfl⟩⟩
        show joinL out.data (normpathL (dropSlashes name.data)) =
          out.data ++ '/' :: joinSlash goods
        obtain ⟨g, gs, rfl⟩ := List.exists_cons_of_ne_nil hgne
        obtain ⟨hgn, _, _, hgfree⟩ := hggood g (List.mem_cons_self g gs)
        obtain ⟨c, cr, rfl⟩ := List.exists_cons_of_ne_nil hgn
        have hcne : c ≠ '/' := fun e => hgfree (by simp [e])
        obtain ⟨t, ht⟩ := joinSlash_cons_head c cr gs
        have habs : isAbsL (joinSlash ((c :: cr) :: gs)) = false := by
          rw [ht]
          exact isAbsL_head_ne hcne t
        rw [hjoin, hsegs]
        exact joinL_clean_dir segs hne hg (joinSlash ((c :: cr) :: gs)) habs
    · exact absurd hok (by simp)

theorem sanitize_escape_error (cwd : List Char) (name out : String)
    (segs : List (List Char)) (hsegs : out.data = '/' :: joinSlash segs)
    (hg : ∀ s ∈ segs, goodSeg s) (hne : segs ≠ [])
    (hesc : memberEscapes cwd name out) :
    ∃ msg, sanitizeArchivePath cwd name out = Except.error msg := by
  by_cases hb : (leadsWith (normpathL (dropSlashes name.data)) dotdot ||
      isAbsL (normpathL (dropSlashes name.data))) = true
  · refine ⟨"Unsafe archive member path: " ++ name, ?_⟩
    simp only [sanitizeArchivePath]
    rw [if_pos hb]
  · exfalso
    simp only [Bool.or_eq_true, not_or, Bool.not_eq_true] at hb
    obtain ⟨hb1, hb2⟩ := hb
    have houtabs : abspathL cwd out.data = out.data := by
      unfold abspathL
      rw [hsegs, if_pos (by simp [isAbsL])]
      exact normpathL_clean_abs segs hg
    rcases hesc with hd1 | hd2 | hd3
    · rcases hd1 with he | he
      · rw [he, leadsWith_refl] at hb1
        exact Bool.true_eq_false.mp hb1
      · have h2 := leadsWith_of_append (a := dotdot) (b := ['/']) he
        rw [hb1] at h2
        exact Bool.false_ne_true h2
    · rw [hb2] at hd2
      exact Bool.false_ne_true hd2
    · apply hd3
      rcases normpathL_rel_structure name.data hb1 with hdot | ⟨goods, hgne, hggood, hjoin⟩
      · rw [hdot, houtabs]
        have hjl : joinL out.data ['.'] = out.data ++ '/' :: ['.'] := by
          rw [hsegs]
          exact joinL_clean_dir segs hne hg ['.'] (by simp [isAbsL])
        rw [hjl]
        have habs : abspathL cwd (out.data ++ '/' :: ['.']) = out.data := by
          unfold abspathL
          rw [hsegs, if_pos (by simp [isAbsL])]
          exact normpathL_out_dot segs hg hne
        rw [habs]
        exact Or.inl rfl
      · rw [hjoin, houtabs]
        obtain ⟨g, gs, rfl⟩ := List.exists_cons_of_ne_nil hgne
        obtain ⟨hgn, _, _, hgfree⟩ := hggood g (List.mem_cons_self g gs)
        obtain ⟨c, cr, rfl⟩ := List.exists_cons_of_ne_nil hgn
        have hcne : c ≠ '/' := fun e => hgfree (by simp [e])
        obtain ⟨t, ht⟩ := joinSlash_cons_head c cr gs
        have habsb : isAbsL (joinSlash ((c :: cr) :: gs)) = false := by
          rw [ht]
          exact isAbsL_head_ne hcne t
        have hjl : joinL out.data (joinSlash ((c :: cr) :: gs)) =
            out.data ++ '/' :: joinSlash ((c :: cr) :: gs) := by
          rw [hsegs]
          exact joinL_clean_dir segs hne hg _ habsb
        rw [hjl]
        have habs : abspathL cwd (out.data ++ '/' :: joinSlash ((c :: cr) :: gs)) =
            out.data ++ '/' :: joinSlash ((c :: cr) :: gs) := by
          unfold abspathL
          rw [hsegs, if_pos (by simp [isAbsL])]
          exact normpathL_out_goods segs ((c :: cr) :: gs) hg hggood hne (by simp)
        rw [habs]
        refine Or.inr ?_
        rw [List.append_cons out.data '/' (joinSlash ((c :: cr) :: gs))]
        exact leadsWith_append _ _

theorem runZip_error_of_unsafe (cwd : List Char) (disp : String → String)
    (out : String) :
    ∀ es : List ZipEntry,
      (∃ e ∈ es, ∃ m, sanitizeArchivePath cwd e.name out = Except.error m) →
      ∃ msg, (runZipEntries cwd disp out es).2 = Except.error msg := by
  intro es
  induction es with
  | nil =>
    rintro ⟨e, he, _⟩
    simp at he
  | cons e rest ih =>
    rintro ⟨x, hx, m, hm⟩
    cases hs : sanitizeArchivePath cwd e.name out with
    | error mm => exact ⟨mm, by simp [runZipEntries, hs]⟩
    | ok s =>
      rcases List.mem_cons.1 hx with rfl | hx2
      · rw [hs] at hm
        exact absurd hm (by simp)
      · obtain ⟨msg, hmsg⟩ := ih ⟨x, hx2, m, hm⟩
        exact ⟨msg, by simp [runZipEntries, hs, hmsg, Except.map]⟩

theorem runTar_error_of_unsafe (cwd : List Char) (disp : String → String)
    (out : String) :
    ∀ es : List TarEntry,
      (∃ e ∈ es, ∃ m, sanitizeArchivePath cwd e.name out = Except.error m) →
      ∃ msg, (runTarEntries cwd disp out es).2 = Except.error msg := by
  intro es
  induction es with
  | nil =>
    rintro ⟨e, he, _⟩
    simp at he
  | cons e rest ih =>
    rintro ⟨x, hx, m, hm⟩
    cases hs : sanitizeArchivePath cwd e.name out with
    | error mm => exact ⟨mm, by simp [runTarEntries, hs]⟩
    | ok s =>
      rcases List.mem_cons.1 hx with rfl | hx2
      · rw [hs] at hm
        exact absurd hm (by simp)
      · obtain ⟨msg, hmsg⟩ := ih ⟨x, hx2, m, hm⟩
        refine ⟨msg, ?_⟩
        cases hk : e.kind <;> simp [runTarEntries, hs, hk, hmsg, Except.map]

theorem runZip_writes_inside (cwd : List Char) (disp : String → String)
    (out : String) (segs : List (List Char)) (hsegs : out.data = '/' :: joinSlash segs)
    (hg : ∀ s ∈ segs, goodSeg s) (hne : segs ≠ []) :
    ∀ (es : List ZipEntry) (p d : String),
      FsEvent.writeFile p d ∈ (runZipEntries cwd disp out es).1 →
      ∃ rel, p.data = out.data ++ '/' :: rel ∧
        (rel = ['.'] ∨ ∃ gs, gs ≠ [] ∧ (∀ s ∈ gs, goodSeg s) ∧ rel = joinSlash gs) := by
  intro es
  induction es with
  | nil =>
    intro p d hp
    simp [runZipEntries] at hp
  | cons e rest ih =>
    intro p d hp
    cases hs : sanitizeArchivePath cwd e.name out with
    | error m =>
      rw [runZipEntries, hs] at hp
      simp at hp
    | ok safe =>
      rw [runZipEntries, hs] at hp
      simp only [List.mem_cons] at hp
      rcases hp with h1 | h2 | h3
      · exact absurd h1 (by simp)
      · have hps : p = safe := by
          injection h2 with hh _
        subst hps
        exact sanitize_ok_shape cwd e.name out segs hsegs hg hne p hs
      · exact ih p d h3

theorem runTar_writes_inside (cwd : List Char) (disp : String → String)
    (out : String) (segs : List (List Char)) (hsegs : out.data = '/' :: joinSlash segs)
    (hg : ∀ s ∈ segs, goodSeg s) (hne : segs ≠ []) :
    ∀ (es : List TarEntry) (p d : String),
      FsEvent.writeFile p d ∈ (runTarEntries cwd disp out es).1 →
      ∃ rel, p.data = out.data ++ '/' :: rel ∧
        (rel = ['.'] ∨ ∃ gs, gs ≠ [] ∧ (∀ s ∈ gs, goodSeg s) ∧ rel = joinSlash gs) := by
  intro es
  induction es with
  | nil =>
    intro p d hp
    simp [runTarEntries] at hp
  | cons e rest ih =>
    intro p d hp
    cases hs : sanitizeArchivePath cwd e.name out with
    | error m =>
      rw [runTarEntries, hs] at hp
      simp at hp
    | ok safe =>
      rw [runTarEntries, hs] at hp
      cases hk : e.kind <;> rw [hk] at hp
      · simp only [List.mem_cons] at hp
        rcases hp with h1 | h2 | h3
        · exact absurd h1 (by simp)
        · have hps : p = safe := by
            injection h2 with hh _
          subst hps
          exact sanitize_ok_shape cwd e.name out segs hsegs hg hne p hs
        · exact ih p d h3
      · simp only [List.mem_cons] at hp
        rcases hp with h1 | h3
        · exact absurd h1 (by simp)
        · exact ih p d h3
      · exact ih p d hp

/-- C2: over an output directory that is a resolved, root-anchored clean
path `/seg1/…/segn`, (a) fail-closed: if any member of the archive is
unsafe in the claim's sense — after stripping leading separators and
normalizing, its stored path still begins with a `..` segment, is absolute,
or joins to a location outside the output directory — then the whole
extraction returns an error; and (b) confinement: every file write performed
by the extraction (on any outcome) targets a path of the form
`out/rel` where `rel` is either the degenerate `.` (the output directory
itself) or a clean slash-separated sequence of normal segments — in
particular no file is created outside the output directory. -/
theorem archive_extraction_fail_closed (cwd : List Char) (disp : String → String)
    (fileName out : String) (content : ArchiveInput)
    (segs : List (List Char)) (hsegs : out.data = '/' :: joinSlash segs)
    (hg : ∀ s ∈ segs, goodSeg s) (hne : segs ≠ []) :
    ((∃ name ∈ archiveNames content, memberEscapes cwd name out) →
      ∃ msg, (decompressArchive cwd disp fileName content out).2 = Except.error msg) ∧
    (∀ p d, FsEvent.writeFile p d ∈ (decompressArchive cwd disp fileName content out).1 →
      ∃ rel, p.data = out.data ++ '/' :: rel ∧
        (rel = ['.'] ∨ ∃ gs, gs ≠ [] ∧ (∀ s ∈ gs, goodSeg s) ∧ rel = joinSlash gs)) := by
  unfold decompressArchive
  by_cases hz : endsWithS fileName ".zip" = true
  · rw [if_pos hz]
    cases content with
    | zip es =>
      constructor
      · rintro ⟨nm, hnm, hesc⟩
        apply runZip_error_of_unsafe
        simp only [archiveNames, List.mem_map] at hnm
        obtain ⟨e, he, rfl⟩ := hnm
        obtain ⟨msg, hmsg⟩ := sanitize_escape_error cwd e.name out segs hsegs hg hne hesc
        exact ⟨e, he, msg, hmsg⟩
      · exact runZip_writes_inside cwd disp out segs hsegs hg hne es
    | tar es =>
      constructor
      · intro _
        exact ⟨_, rfl⟩
      · intro p d hp
        simp at hp
  · rw [if_neg hz]
    by_cases ht : (endsWithS fileName ".tar" || endsWithS fileName ".tar.gz" ||
        endsWithS fileName ".tgz") = true
    · rw [if_pos ht]
      cases content with
      | tar es =>
        constructor
        · rintro ⟨nm, hnm, hesc⟩
          apply runTar_error_of_unsafe
          simp only [archiveNames, List.mem_map] at hnm
          obtain ⟨e, he, rfl⟩ := hnm
          obtain ⟨msg, hmsg⟩ := sanitize_escape_error cwd e.name out segs hsegs hg hne hesc
          exact ⟨e, he, msg, hmsg⟩
        · exact runTar_writes_inside cwd disp out segs hsegs hg hne es
      | zip es =>
        constructor
        · intro _
          exact ⟨_, rfl⟩
        · intro p d hp
          simp at hp
    · rw [if_neg ht]
      constructor
      · intro _
        exact ⟨_, rfl⟩
      · intro p d hp
        simp at hp

/-- Witness for C2: a zip whose single member is `../evil.txt` is rejected
as a whole. -/
theorem archive_extraction_fail_closed_witness :
    ∃ msg, (decompressArchive ['/'] id "a.zip"
      (ArchiveInput.zip [⟨"../evil.txt", "p"⟩]) "/out").2 = Except.error msg :=
  (archive_extraction_fail_closed ['/'] id "a.zip" "/out"
      (ArchiveInput.zip [⟨"../evil.txt", "p"⟩]) [['o', 'u', 't']] rfl (by decide)
      (by decide)).1
    ⟨"../evil.txt", by decide, by decide⟩

/-! ### Claim C10: an aborted extraction keeps the work already done -/

theorem runZip_abort (cwd : List Char) (disp : String → String) (out : String)
    (bad : ZipEntry) (post : List ZipEntry) (msg : String)
    (hbad : sanitizeArchivePath cwd bad.name out = Except.error msg) :
    ∀ pre : List ZipEntry,
      (∀ e ∈ pre, ∃ s, sanitizeArchivePath cwd e.name out = Except.ok s) →
      runZipEntries cwd disp out (pre ++ bad :: post) =
        (zipEventsAll cwd out pre, Except.error msg) := by
  intro pre
  induction pre with
  | nil =>
    intro _
    simp [runZipEntries, zipEventsAll, hbad]
  | cons e pre ih =>
    intro hpre
    obtain ⟨s, hs⟩ := hpre e (List.mem_cons_self e pre)
    have hrest := ih (fun x hx => hpre x (List.mem_cons_of_mem e hx))
    simp [runZipEntries, zipEventsAll, hs, hrest, Except.map]

theorem runTar_abort (cwd : List Char) (disp : String → String) (out : String)
    (bad : TarEntry) (post : List TarEntry) (msg : String)
    (hbad : sanitizeArchivePath cwd bad.name out = Except.error msg) :
    ∀ pre : List TarEntry,
      (∀ e ∈ pre, ∃ s, sanitizeArchivePath cwd e.name out = Except.ok s) →
      runTarEntries cwd disp out (pre ++ bad :: post) =
        (tarEventsAll cwd out pre, Except.error msg) := by
  intro pre
  induction pre with
  | nil =>
    intro _
    simp [runTarEntries, tarEventsAll, hbad]
  | cons e pre ih =>
    intro hpre
    obtain ⟨s, hs⟩ := hpre e (List.mem_cons_self e pre)
    have hrest := ih (fun x hx => hpre x (List.mem_cons_of_mem e hx))
    cases hk : e.kind <;>
      simp [runTarEntries, tarEventsAll, hs, hrest, hk, Except.map]

/-- C10: when extraction aborts because the member at position `k` is
unsafe, the filesystem events performed are exactly those of the accepted
members before position `k` — the files extracted earlier remain, nothing is
rolled back — and the result envelope of `decompress_file` carries only the
error: `ok=false`, no `extracted_files`, no `count`.  Shown for the ZIP
branch and the tar branch. -/
theorem extraction_abort_keeps_prior_work
    (cwd : List Char) (disp : String → String) (out : String)
    (fileNameZ fileNameT : String)
    (preZ : List ZipEntry) (badZ : ZipEntry) (postZ : List ZipEntry) (msgZ : String)
    (preT : List TarEntry) (badT : TarEntry) (postT : List TarEntry) (msgT : String)
    (hzName : endsWithS fileNameZ ".zip" = true)
    (htName1 : endsWithS fileNameT ".zip" = false)
    (htName2 : endsWithS fileNameT ".tar" = true)
    (hpreZ : ∀ e ∈ preZ, ∃ s, sanitizeArchivePath cwd e.name out = Except.ok s)
    (hbadZ : sanitizeArchivePath cwd badZ.name out = Except.error msgZ)
    (hpreT : ∀ e ∈ preT, ∃ s, sanitizeArchivePath cwd e.name out = Except.ok s)
    (hbadT : sanitizeArchivePath cwd badT.name out = Except.error msgT) :
    decompressEnvelope cwd disp fileNameZ (ArchiveInput.zip (preZ ++ badZ :: postZ)) out =
      (zipEventsAll cwd out preZ,
       { ok := false, action := "decompress", subjectType := "file",
         error := some msgZ }) ∧
    decompressEnvelope cwd disp fileNameT (ArchiveInput.tar (preT ++ badT :: postT)) out =
      (tarEventsAll cwd out preT,
       { ok := false, action := "decompress", subjectType := "file",
         error := some msgT }) := by
  constructor
  · have hrun := runZip_abort cwd disp out badZ postZ msgZ hbadZ preZ hpreZ
    simp [decompressEnvelope, decompressArchive, hzName, hrun]
  · have hrun := runTar_abort cwd disp out badT postT msgT hbadT preT hpreT
    simp [decompressEnvelope, decompressArchive, htName1, htName2, hrun]

/-- Witness for C10: a zip with a good member, then `../evil.txt`, then one
more member; and the analogous tar. -/
theorem extraction_abort_keeps_prior_work_witness :
    decompressEnvelope ['/'] id "a.zip"
        (ArchiveInput.zip ([⟨"ok.txt", "hi"⟩] ++ ⟨"../evil.txt", "p"⟩ :: [⟨"b.txt", "q"⟩]))
        "/out" =
      (zipEventsAll ['/'] "/out" [⟨"ok.txt", "hi"⟩],
       { ok := false, action := "decompress", subjectType := "file",
         error := some "Unsafe archive member path: ../evil.txt" }) ∧
    decompressEnvelope ['/'] id "b.tar"
        (ArchiveInput.tar ([⟨"ok.txt", TarKind.file, "hi"⟩] ++
          ⟨"../evil.txt", TarKind.file, "p"⟩ :: [])) "/out" =
      (tarEventsAll ['/'] "/out" [⟨"ok.txt", TarKind.file, "hi"⟩],
       { ok := false, action := "decompress", subjectType := "file",
         error := some "Unsafe archive member path: ../evil.txt" }) :=
  extraction_abort_keeps_prior_work ['/'] id "/out" "a.zip" "b.tar"
    [⟨"ok.txt", "hi"⟩] ⟨"../evil.txt", "p"⟩ [⟨"b.txt", "q"⟩]
    "Unsafe archive member path: ../evil.txt"
    [⟨"ok.txt", TarKind.file, "hi"⟩] ⟨"../evil.txt", TarKind.file, "p"⟩ []
    "Unsafe archive member path: ../evil.txt"
    (by decide) (by decide) (by decide)
    (by intro e he; simp at he; subst he; exact ⟨"/out/ok.txt", rfl⟩)
    rfl
    (by intro e he; simp at he; subst he; exact ⟨"/out/ok.txt", rfl⟩)
    rfl

/-! ### Claim C7: per-member-kind extraction behavior -/

/-- C7 counterexample: in the ZIP branch a directory entry (stored name
`d/`) is not created as a directory — the code writes a regular file at the
sanitized path `/out/d` (with empty data, as `zipf.read` returns for a
directory entry) and never issues a directory creation for `/out/d`. -/
theorem zip_directory_entry_written_as_file :
    runZipEntries ['/'] id "/out" [⟨"d/", ""⟩] =
      ([FsEvent.mkdirs "/out", FsEvent.writeFile "/out/d" ""], Except.ok ["/out/d"]) ∧
    FsEvent.mkdirs "/out/d" ∉ (runZipEntries ['/'] id "/out" [⟨"d/", ""⟩]).1 := by
  constructor
  · rfl
  · decide

/-- C7 amended: in the tar family branch, a member that sanitizes to `safe`
is handled by kind — a regular file gets its parent directory created and
its bytes written to `safe`, a directory entry is created as a directory,
and every other kind (devices, hard links, symlinks) is ignored; in the ZIP
branch every member, directory entries included, has its parent created and
its bytes written to `safe` as a regular file. -/
theorem member_kind_handling (cwd : List Char) (disp : String → String)
    (out : String) (safe : String) :
    (∀ (e : TarEntry) (rest : List TarEntry),
      sanitizeArchivePath cwd e.name out = Except.ok safe →
      runTarEntries cwd disp out (e :: rest) =
        match e.kind with
        | TarKind.file =>
            (FsEvent.mkdirs ⟨dirnameL safe.data⟩ :: FsEvent.writeFile safe e.data ::
               (runTarEntries cwd disp out rest).1,
             (runTarEntries cwd disp out rest).2.map (fun l => disp safe :: l))
        | TarKind.dir =>
            (FsEvent.mkdirs safe :: (runTarEntries cwd disp out rest).1,
             (runTarEntries cwd disp out rest).2)
        | TarKind.other => runTarEntries cwd disp out rest) ∧
    (∀ (e : ZipEntry) (rest : List ZipEntry),
      sanitizeArchivePath cwd e.name out = Except.ok safe →
      runZipEntries cwd disp out (e :: rest) =
        (FsEvent.mkdirs ⟨dirnameL safe.data⟩ :: FsEvent.writeFile safe e.data ::
           (runZipEntries cwd disp out rest).1,
         (runZipEntries cwd disp out rest).2.map (fun l => disp safe :: l))) := by
  constructor
  · intro e rest hs
    cases hk : e.kind <;> simp [runTarEntries, hs, hk]
  · intro e rest hs
    simp [runZipEntries, hs]

/-- Witness for C7: a tar directory member `d` is created as the directory
`/out/d`. -/
theorem member_kind_handling_witness :
    runTarEntries ['/'] id "/out" [⟨"d", TarKind.dir, ""⟩] =
      (FsEvent.mkdirs "/out/d" :: (runTarEntries ['/'] id "/out" []).1,
       (runTarEntries ['/'] id "/out" []).2) :=
  (member_kind_handling ['/'] id "/out" "/out/d").1 ⟨"d", TarKind.dir, ""⟩ [] rfl

/-! ### Claim C8: the display-path mapper -/

/-- C8 counterexample: with the real root `/data` and a distinct display
root `/fake` configured, relative-path mode on and debug off, mapping the
in-root path `/data/data/x` yields `/fake/data/x`, which contains the real
root's string `/data` as a substring — the inner directory named `data`
reintroduces it — so the produced path does not avoid containing the real
root's string. -/
theorem display_path_contains_root :
    getRelativePath ['/'] "/data" "/fake" true "/data/data/x" = "/fake/data/x" ∧
    strContains "/fake/data/x" "/data" = true ∧
    normpathL (joinL ['/'] "/fake".data) ≠ normpathL (joinL ['/'] "/data".data) :=
  ⟨rfl, rfl, by decide⟩

theorem leadsWith_cons_single (c : Char) (cs : List Char) :
    leadsWith (c :: cs) [c] = true := by
  simp [leadsWith]

theorem stripPre_suffix : ∀ (xs ys rest : List (List Char)),
    stripPre xs ys = some rest → ∃ pre, ys = pre ++ rest := by
  intro xs
  induction xs with
  | nil =>
    intro ys rest h
    simp only [stripPre, Option.some.injEq] at h
    subst h
    exact ⟨[], rfl⟩
  | cons x xs ih =>
    intro ys rest h
    cases ys with
    | nil => simp [stripPre] at h
    | cons y ys2 =>
      simp only [stripPre] at h
      split at h
      · obtain ⟨pre, hp⟩ := ih ys2 rest h
        exact ⟨y :: pre, by simp [hp]⟩
      · simp at h

theorem pureParts_clean (parts : List (List Char)) (hg : ∀ s ∈ parts, goodSeg s) :
    pureParts ('/' :: joinSlash parts) = parts := by
  unfold pureParts
  rw [splitSlash_cons_slash]
  cases parts with
  | nil => simp [joinSlash, splitSlash]
  | cons p ps =>
    rw [splitSlash_joinSlash (p :: ps) (by simp) (fun x hx => (hg x hx).2.2.2)]
    rw [List.filter_cons, if_neg (by decide)]
    exact List.filter_eq_self.mpr (fun a ha => by
      simp only [decide_eq_true_eq]
      exact not_or.mpr ⟨(hg a ha).1, (hg a ha).2.1⟩)

theorem purePathJoin_clean (sparts : List (List Char))
    (hgood : ∀ s ∈ sparts, goodSeg s)
    (rel : List Char) (hrel : isAbsL rel = false) :
    purePathJoin ('/' :: joinSlash sparts) rel =
      '/' :: joinSlash (sparts ++ pureParts rel) := by
  unfold purePathJoin
  rw [if_neg (by simp [hrel])]
  rw [pureParts_clean sparts hgood]
  unfold pureStr
  rw [if_pos (by simp [isAbsL])]

theorem leadsWith_clean_extend (sparts R : List (List Char)) :
    leadsWith ('/' :: joinSlash (sparts ++ R)) ('/' :: joinSlash sparts) = true := by
  cases R with
  | nil =>
    rw [List.append_nil]
    exact leadsWith_refl _
  | cons r rs =>
    cases sparts with
    | nil => simp [leadsWith, joinSlash]
    | cons s ss =>
      rw [joinSlash_append (s :: ss) (r :: rs) (by simp) (by simp)]
      exact leadsWith_append ('/' :: joinSlash (s :: ss)) ('/' :: joinSlash (r :: rs))

theorem getRelativePath_eq (cwd : List Char) (rootDir spoofDir absPath : String)
    (hne : spoofDir ≠ "") :
    getRelativePath cwd rootDir spoofDir true absPath =
      match relativeToL absPath.data (normpathL (joinL cwd rootDir.data)) with
      | none => absPath
      | some rel =>
        if normpathL (joinL cwd spoofDir.data) = normpathL (joinL cwd rootDir.data)
        then ⟨rel⟩ else ⟨purePathJoin spoofDir.data rel⟩ := by
  unfold getRelativePath
  rw [if_neg (by simp), if_pos hne]

/-- C8 amended: with relative-path mode on and a display (spoof) root that
is a clean absolute path distinct (once resolved) from the resolved real
root, every path under the real root is mapped to exactly the display root
joined with the path's root-relative remainder: the output begins with the
display-root prefix, and — whenever the display root and the resolved real
root are prefix-incomparable — the output does not begin with the real
root's string (the real root can still occur deeper inside the output when
an inner directory shares its name, as the counterexample shows); a path
not under the real root is returned unchanged rather than raising. -/
theorem display_path_spoof (cwd : List Char) (rootDir spoofDir absPath : String)
    (sparts : List (List Char))
    (hs : spoofDir.data = '/' :: joinSlash sparts)
    (hgood : ∀ s ∈ sparts, goodSeg s)
    (hne : spoofDir ≠ "")
    (hdist : normpathL (joinL cwd spoofDir.data) ≠ normpathL (joinL cwd rootDir.data)) :
    (∀ rel, relativeToL absPath.data (normpathL (joinL cwd rootDir.data)) = some rel →
       getRelativePath cwd rootDir spoofDir true absPath =
         ⟨purePathJoin spoofDir.data rel⟩ ∧
       leadsWith (purePathJoin spoofDir.data rel) spoofDir.data = true ∧
       (leadsWith spoofDir.data (normpathL (joinL cwd rootDir.data)) = false →
        leadsWith (normpathL (joinL cwd rootDir.data)) spoofDir.data = false →
        leadsWith (purePathJoin spoofDir.data rel)
          (normpathL (joinL cwd rootDir.data)) = false)) ∧
    (relativeToL absPath.data (normpathL (joinL cwd rootDir.data)) = none →
       getRelativePath cwd rootDir spoofDir true absPath = absPath) := by
  have hpre : ∀ rel, relativeToL absPath.data (normpathL (joinL cwd rootDir.data)) =
      some rel →
      leadsWith (purePathJoin spoofDir.data rel) spoofDir.data = true := by
    intro rel hrel
    simp only [relativeToL] at hrel
    split at hrel
    · cases hstrip : stripPre (pureParts (normpathL (joinL cwd rootDir.data)))
          (pureParts absPath.data) with
      | none => rw [hstrip] at hrel; simp at hrel
      | some rest =>
        rw [hstrip] at hrel
        simp only [Option.some.injEq] at hrel
        subst hrel
        by_cases hrnil : rest = []
        · subst hrnil
          rw [if_pos rfl, hs, purePathJoin_clean sparts hgood ['.'] (by decide)]
          exact leadsWith_clean_extend sparts (pureParts ['.'])
        · rw [if_neg hrnil]
          have hRmem : ∀ x ∈ rest, x ∈ pureParts absPath.data := by
            obtain ⟨pre, hp⟩ := stripPre_suffix _ _ _ hstrip
            intro x hx
            rw [hp]
            exact List.mem_append.2 (Or.inr hx)
          obtain ⟨r, rs, rfl⟩ := List.exists_cons_of_ne_nil hrnil
          have hrk : ¬ (r = [] ∨ r = ['.']) := by
            have := List.of_mem_filter (hRmem r (List.mem_cons_self r rs))
            simpa only [decide_eq_true_eq] using this
          have hrf : '/' ∉ r := mem_splitSlash_no_slash absPath.data r
            (List.mem_of_mem_filter (hRmem r (List.mem_cons_self r rs)))
          have hrne : r ≠ [] := fun e => hrk (Or.inl e)
          obtain ⟨c, cr, rfl⟩ := List.exists_cons_of_ne_nil hrne
          have hcne : c ≠ '/' := fun e => hrf (by simp [e])
          obtain ⟨t, ht⟩ := joinSlash_cons_head c cr rs
          have habs : isAbsL (joinSlash ((c :: cr) :: rs)) = false := by
            rw [ht]
            exact isAbsL_head_ne hcne t
          rw [hs, purePathJoin_clean sparts hgood _ habs]
          exact leadsWith_clean_extend sparts (pureParts (joinSlash ((c :: cr) :: rs)))
    · simp at hrel
  refine ⟨?_, ?_⟩
  · intro rel hrel
    have hmap : getRelativePath cwd rootDir spoofDir true absPath =
        ⟨purePathJoin spoofDir.data rel⟩ := by
      rw [getRelativePath_eq cwd rootDir spoofDir absPath hne, hrel]
      simp [hdist]
    refine ⟨hmap, hpre rel hrel, ?_⟩
    intro h1 h2
    by_contra hcon
    rw [Bool.not_eq_false] at hcon
    rcases leadsWith_comparable (hpre rel hrel) hcon with h | h
    · rw [h1] at h
      exact Bool.false_ne_true h
    · rw [h2] at h
      exact Bool.false_ne_true h
  · intro hrel
    rw [getRelativePath_eq cwd rootDir spoofDir absPath hne, hrel]

/-- Witness for C8: the real root `/data`, the display root `/fake`, and the
in-root path `/data/a`, which maps to `/fake/a`. -/
theorem display_path_spoof_witness :
    getRelativePath ['/'] "/data" "/fake" true "/data/a" =
      ⟨purePathJoin "/fake".data ['a']⟩ ∧
    leadsWith (purePathJoin "/fake".data ['a']) "/fake".data = true :=
  have h := (display_path_spoof ['/'] "/data" "/fake" "/data/a"
    [['f', 'a', 'k', 'e']] rfl (by decide) (by decide) (by decide)).1 ['a'] (by decide)
  ⟨h.1, h.2.1⟩

end FsTool
